import Mathlib

set_option maxHeartbeats 1000000
set_option maxRecDepth 4000
set_option synthInstance.maxHeartbeats 100000

/-!
Shallow embedding of the namespace-fingerprint pipeline: the canonicalization
of dotted package identifiers (`make_fingerprints.py`), the per-repository
fingerprint deduplication, the fingerprint-corpus loader, the class indexer,
the prefix-closure matching engine (`match_fingerprints_in_apks.py`) and the
per-target aggregator (`summarize_reports.py`).  Strings are modelled as
`List Char`; Python `dict`s keyed by strings are modelled as association
lists that preserve insertion order.
-/

abbrev Str := List Char

/-- Python's default `str.strip()` character class (ASCII whitespace). -/
def isPySpace (c : Char) : Bool :=
  c = ' ' || c = '\t' || c = '\n' || c = '\r' || c = '\x0b' || c = '\x0c'

/-- Drop the trailing characters of `l` that satisfy `p` (right half of Python `strip`). -/
def dropTrailing (p : Char → Bool) : Str → Str
  | [] => []
  | a :: rest =>
    let r := dropTrailing p rest
    if r = [] && p a then [] else a :: r

/-- Python `s.strip(chars)`: remove the characters satisfying `p` from both ends. -/
def stripChars (p : Char → Bool) (l : Str) : Str :=
  dropTrailing p (l.dropWhile p)

/-- Character-level effect of Python `s.replace(".", "/")`. -/
def replaceDotChar (c : Char) : Char := if c = '.' then '/' else c

/-- Embeds `to_smali_prefix` of `make_fingerprints.py`:
`java_pkg.strip().strip(".")`, return `""` when empty, else
`"L" + java_pkg.replace(".", "/") + "/"`. -/
def to_smali_pref (java_pkg : Str) : Str :=
  let t := stripChars (fun c => c = '.') (stripChars isPySpace java_pkg)
  if t = [] then [] else 'L' :: t.map replaceDotChar ++ ['/']

/-- Whether `c` occurs at two consecutive positions of the string. -/
def hasDoubleChar (c : Char) : Str → Bool
  | [] => false
  | [_] => false
  | a :: b :: rest => (a = c && b = c) || hasDoubleChar c (b :: rest)

/-- Python `s.split(sep)` for a one-character separator: splits at every
occurrence, keeping empty pieces, and always returns at least one piece. -/
def pySplit (sep : Char) : Str → List Str
  | [] => [[]]
  | c :: cs =>
    match pySplit sep cs with
    | [] => [[]]
    | cur :: rest => if c = sep then [] :: cur :: rest else (c :: cur) :: rest

/-- One fingerprint candidate `(smali_prefix, type, file_path)` as produced by
the detector helpers of `make_fingerprints.py`. -/
structure Fp3 where
  smali : Str
  typ : Str
  fpath : Str
deriving DecidableEq

/-- Embeds the loop of `dedup` in `make_fingerprints.py`, with `seen` the set
of `(smali, typ)` keys already emitted. -/
def dedupGo (seen : List (Str × Str)) : List Fp3 → List Fp3
  | [] => []
  | f :: rest =>
    if (f.smali, f.typ) ∈ seen then dedupGo seen rest
    else f :: dedupGo ((f.smali, f.typ) :: seen) rest

/-- Embeds `dedup` of `make_fingerprints.py`: keep the first occurrence of
each `(smali, typ)` key. -/
def dedup (seq : List Fp3) : List Fp3 := dedupGo [] seq

/-- One row of `fingerprints.csv` (also the in-memory entry stored in the
prefix map by `load_fingerprints`; the entry reuses the row shape with the
stripped prefix in `smali_pref`). -/
structure FpRow where
  repo_host : Str
  repo_path : Str
  repo_url : Str
  libarary_key : Str
  library_name : Str
  smali_pref : Str
  fingerprint_type : Str
  repo_file_path : Str
deriving DecidableEq

/-- Python `repo_path.split("/")[-1]`. -/
def lastSeg (s : Str) : Str := (pySplit '/' s).getLastD []

/-- Embeds the row-building tail of `process_one_repo` in
`make_fingerprints.py`: deduplicate the detected fingerprints and convert
them to CSV rows (the detector scans themselves are filesystem walks and are
taken as the abstract input `fps`). -/
def process_one_repo_rows (host repo_path url : Str) (fps : List Fp3) : List FpRow :=
  (dedup fps).map (fun f =>
    { repo_host := host, repo_path := repo_path, repo_url := url,
      libarary_key := repo_path,
      library_name := if repo_path = [] then [] else lastSeg repo_path,
      smali_pref := f.smali, fingerprint_type := f.typ, repo_file_path := f.fpath })

/-- Lookup in the insertion-ordered association list modelling the Python
dict `prefix_map`. -/
def pmLookup : List (Str × List FpRow) → Str → List FpRow
  | [], _ => []
  | (k, v) :: rest, q => if k = q then v else pmLookup rest q

/-- Python `pref in prefix_map`. -/
def pmContains : List (Str × List FpRow) → Str → Bool
  | [], _ => false
  | (k, _) :: rest, q => k = q || pmContains rest q

/-- Python `prefix_map.setdefault(key, []).append(entry)`. -/
def pmAppend : List (Str × List FpRow) → Str → FpRow → List (Str × List FpRow)
  | [], q, e => [(q, [e])]
  | (k, v) :: rest, q, e =>
    if k = q then (k, v ++ [e]) :: rest else (k, v) :: pmAppend rest q e

/-- One iteration of the reader loop of `load_fingerprints`: strip the
`smali_prefix` field, silently drop the row when the prefix is empty, does
not start with `L` or does not end with `/`, and otherwise append the entry
under its prefix key. -/
def loadStep (m : List (Str × List FpRow)) (row : FpRow) : List (Str × List FpRow) :=
  let pref := stripChars isPySpace row.smali_pref
  if pref = [] ∨ pref.head? ≠ some 'L' ∨ pref.getLast? ≠ some '/' then m
  else pmAppend m pref { row with smali_pref := pref }

/-- Embeds `load_fingerprints` of `match_fingerprints_in_apks.py`: fold the
CSV rows into the prefix map. -/
def load_fingerprints (rows : List FpRow) : List (Str × List FpRow) :=
  rows.foldl loadStep []

/-- One entry of the per-app class index: a class descriptor together with
the smali file that declared it. -/
structure ClassEntry where
  cls : Str
  path : Str
deriving DecidableEq

/-- Embeds `CLASS_RE.match`, the regex `^\s*\.class\s+[^\s]+\s+([^\s]+)` of
`match_fingerprints_in_apks.py`: skip leading whitespace, expect the literal
`.class`, a whitespace run, a non-whitespace token, another whitespace run,
and capture the following non-whitespace token. -/
def classReMatch (l : Str) : Option Str :=
  let r0 := l.dropWhile isPySpace
  if r0.take 6 = ".class".toList then
    let r1 := r0.drop 6
    if r1.takeWhile isPySpace = [] then none
    else
      let r2 := r1.dropWhile isPySpace
      if r2.takeWhile (fun c => !isPySpace c) = [] then none
      else
        let r3 := r2.dropWhile (fun c => !isPySpace c)
        if r3.takeWhile isPySpace = [] then none
        else
          let r4 := r3.dropWhile isPySpace
          let tok2 := r4.takeWhile (fun c => !isPySpace c)
          if tok2 = [] then none else some tok2
  else none

/-- First line (among those given) whose class-declaration match succeeds. -/
def firstClassMatch : List Str → Option Str
  | [] => none
  | l :: ls =>
    match classReMatch l with
    | some c => some c
    | none => firstClassMatch ls

/-- Per-file part of `index_classes_for_app`: read at most the first 20
lines, keep the first class declaration found, at most one entry per file. -/
def indexFile (path : Str) (lines : List Str) : List ClassEntry :=
  match firstClassMatch (lines.take 20) with
  | some c => [⟨c, path⟩]
  | none => []

/-- Embeds `index_classes_for_app` of `match_fingerprints_in_apks.py` over an
abstract directory listing: each input is a smali file given as its path and
its lines (the filesystem walk itself is outside the embedding). -/
def index_classes_for_app (files : List (Str × List Str)) : List ClassEntry :=
  (files.map (fun f => indexFile f.1 f.2)).flatten

/-- Accumulator loop of `all_prefixes_for_class`: starting from `acc`,
append each namespace segment plus `/` and record every intermediate value. -/
def prefixesGo : Str → List Str → List Str
  | _, [] => []
  | acc, p :: ps => (acc ++ p ++ ['/']) :: prefixesGo (acc ++ p ++ ['/']) ps

/-- Embeds `all_prefixes_for_class` of `match_fingerprints_in_apks.py`: for
`Lcom/foo/bar/Baz;` produce `[Lcom/, Lcom/foo/, Lcom/foo/bar/]`; descriptors
not of the `L...;` shape, or whose body has no `/`, yield no prefixes. -/
def all_prefixes_for_class (class_desc : Str) : List Str :=
  if class_desc.head? = some 'L' ∧ class_desc.getLast? = some ';' then
    let body := (class_desc.drop 1).dropLast
    if '/' ∈ body then prefixesGo ['L'] ((pySplit '/' body).dropLast)
    else []
  else []

/-- One row of a per-app report CSV written by `match_app`. -/
structure MatchRow where
  app_sha256 : Str
  repo_host : Str
  repo_path : Str
  repo_url : Str
  libarary_key : Str
  library_name : Str
  smali_pref : Str
  fingerprint_type : Str
  cls : Str
  cls_file : Str
deriving DecidableEq

/-- Deduplication key used by `match_app`:
`(clazz, smali_prefix, repo_host, repo_path)`. -/
def keyOfRow (r : MatchRow) : Str × Str × Str × Str :=
  (r.cls, r.smali_pref, r.repo_host, r.repo_path)

/-- The CSV row written by `match_app` for one class/fingerprint pair. -/
def mkRow (sha : Str) (c : ClassEntry) (e : FpRow) : MatchRow :=
  { app_sha256 := sha, repo_host := e.repo_host, repo_path := e.repo_path,
    repo_url := e.repo_url, libarary_key := e.libarary_key,
    library_name := e.library_name, smali_pref := e.smali_pref,
    fingerprint_type := e.fingerprint_type, cls := c.cls, cls_file := c.path }

/-- Matching state: the `emitted` key set (most recent first) and the rows
written so far (in emission order). -/
abbrev MatchSt := List (Str × Str × Str × Str) × List MatchRow

/-- Innermost step of `match_app`: one fingerprint entry for one class; skip
if the key was already emitted, otherwise write the row and record the key. -/
def processEntry (sha : Str) (c : ClassEntry) (st : MatchSt) (e : FpRow) : MatchSt :=
  let key := (c.cls, e.smali_pref, e.repo_host, e.repo_path)
  if key ∈ st.1 then st else (key :: st.1, st.2 ++ [mkRow sha c e])

/-- Per-ancestor-prefix step of `match_app`: if the prefix is a corpus key,
fold over all its fingerprint entries. -/
def processPref (pm : List (Str × List FpRow)) (sha : Str) (c : ClassEntry)
    (st : MatchSt) (pref : Str) : MatchSt :=
  if pmContains pm pref then (pmLookup pm pref).foldl (processEntry sha c) st else st

/-- Per-class step of `match_app`: fold over the class's prefix closure. -/
def processClass (pm : List (Str × List FpRow)) (sha : Str) (st : MatchSt)
    (c : ClassEntry) : MatchSt :=
  (all_prefixes_for_class c.cls).foldl (processPref pm sha c) st

/-- Embeds the matching loop of `match_app` in
`match_fingerprints_in_apks.py` (the surrounding cache/file handling is
I/O): the rows written for one target given the corpus and the class list. -/
def match_app (pm : List (Str × List FpRow)) (sha : Str)
    (classes : List ClassEntry) : List MatchRow :=
  (classes.foldl (processClass pm sha) ([], [])).2

/-- Match records produced for a single class entry in isolation. -/
def classRecords (pm : List (Str × List FpRow)) (sha : Str) (c : ClassEntry) :
    List MatchRow :=
  (processClass pm sha ([], []) c).2

/-- Python `set` modelled as a duplicate-free list in insertion order. -/
def setAdd {α : Type} [DecidableEq α] (s : List α) (a : α) : List α :=
  if a ∈ s then s else s ++ [a]

/-- One aggregation bucket of `summarize_one`: the evidence-kind set, the
distinct `(class, file)` set and the first-seen sample. -/
structure Bucket where
  types : List Str
  classesSet : List (Str × Str)
  sample : Option (Str × Str)
deriving DecidableEq

def emptyBucket : Bucket := { types := [], classesSet := [], sample := none }

/-- Folding one report row into a bucket, exactly as the reader loop of
`summarize_one`: always add the fingerprint type; add the `(class, file)`
pair and possibly the sample only when the class field is non-empty. -/
def bucketAdd (b : Bucket) (r : MatchRow) : Bucket :=
  let b1 : Bucket := { b with types := setAdd b.types r.fingerprint_type }
  if r.cls = [] then b1
  else
    { types := b1.types,
      classesSet := setAdd b1.classesSet (r.cls, r.cls_file),
      sample := if b1.sample = none then some (r.cls, r.cls_file) else b1.sample }

/-- Grouping key of `summarize_one`:
`(repo_host, repo_path, libarary_key, library_name, smali_prefix)`. -/
def sumKey (r : MatchRow) : Str × Str × Str × Str × Str :=
  (r.repo_host, r.repo_path, r.libarary_key, r.library_name, r.smali_pref)

/-- Python `buckets.setdefault(key, fresh)` followed by in-place mutation:
update the bucket of the row's key, appending a new bucket if absent. -/
def bucketsAdd (m : List ((Str × Str × Str × Str × Str) × Bucket))
    (r : MatchRow) : List ((Str × Str × Str × Str × Str) × Bucket) :=
  match m with
  | [] => [(sumKey r, bucketAdd emptyBucket r)]
  | (k, b) :: rest =>
    if k = sumKey r then (k, bucketAdd b r) :: rest else (k, b) :: bucketsAdd rest r

/-- The bucket map built by the reader loop of `summarize_one`. -/
def buildBuckets (rows : List MatchRow) :
    List ((Str × Str × Str × Str × Str) × Bucket) :=
  rows.foldl bucketsAdd []

/-- Python `repo_url_by_key[key] = row["repo_url"]` (last row wins) read back
through `.get(key, "")`. -/
def urlByKey (rows : List MatchRow) (k : Str × Str × Str × Str × Str) : Str :=
  (rows.foldl (fun acc r => if sumKey r = k then some r.repo_url else acc) none).getD []

/-- Strict lexicographic comparison of strings by code point, matching the
order used by Python `sorted` on `str`. -/
def strLt : Str → Str → Bool
  | [], [] => false
  | [], _ :: _ => true
  | _ :: _, [] => false
  | a :: as, b :: bs => if a < b then true else if b < a then false else strLt as bs

def sortIns (x : Str) : List Str → List Str
  | [] => [x]
  | y :: ys => if strLt x y then x :: y :: ys else y :: sortIns x ys

/-- Insertion sort implementing Python `sorted` for lists of strings. -/
def sortStrs : List Str → List Str
  | [] => []
  | x :: xs => sortIns x (sortStrs xs)

/-- Python `"|".join(...)`. -/
def joinBar : List Str → Str
  | [] => []
  | [x] => x
  | x :: y :: rest => x ++ '|' :: joinBar (y :: rest)

/-- One row of a per-app summary CSV written by `summarize_one`. -/
structure SummaryRow where
  app_sha256 : Str
  repo_host : Str
  repo_path : Str
  repo_url : Str
  libarary_key : Str
  library_name : Str
  smali_pref : Str
  fingerprint_types : Str
  classes_matched : Nat
  sample_cls : Str
  sample_cls_file : Str
deriving DecidableEq

/-- Embeds `summarize_one` of `summarize_reports.py` on the parsed report
rows: fold the rows into buckets keyed by library identity, then emit one
summary row per bucket with the joined evidence kinds, the distinct-class
count and the first-seen sample. -/
def summarize_one_rows (sha : Str) (rows : List MatchRow) : List SummaryRow :=
  (buildBuckets rows).map (fun kb =>
    { app_sha256 := sha,
      repo_host := kb.1.1,
      repo_path := kb.1.2.1,
      repo_url := urlByKey rows kb.1,
      libarary_key := kb.1.2.2.1,
      library_name := kb.1.2.2.2.1,
      smali_pref := kb.1.2.2.2.2,
      fingerprint_types := joinBar (sortStrs (kb.2.types.filter (fun t => t ≠ []))),
      classes_matched := kb.2.classesSet.length,
      sample_cls := (kb.2.sample.getD ([], [])).1,
      sample_cls_file := (kb.2.sample.getD ([], [])).2 })

/-- Canonical join of namespace segments with `/` (specification helper used
to state the shape of prefix-closure entries). -/
def slashJoin : List Str → Str
  | [] => []
  | [p] => p
  | p :: q :: rest => p ++ '/' :: slashJoin (q :: rest)

/-- First bucket stored under a key (proof-side view of the bucket map). -/
def bLookup : List ((Str × Str × Str × Str × Str) × Bucket) →
    (Str × Str × Str × Str × Str) → Option Bucket
  | [], _ => none
  | (k, b) :: rest, q => if k = q then some b else bLookup rest q

/-! ### Generic string lemmas -/

theorem hasDouble_tail {c a : Char} : ∀ {l : Str},
    hasDoubleChar c (a :: l) = false → hasDoubleChar c l = false := by
  intro l h
  cases l with
  | nil => rfl
  | cons b rest =>
    simp only [hasDoubleChar, Bool.or_eq_false_iff] at h
    exact h.2

theorem dropWhile_eq_self_of_all {p : Char → Bool} {l : Str}
    (h : ∀ c ∈ l, p c = false) : l.dropWhile p = l := by
  cases l with
  | nil => rfl
  | cons a rest => simp [List.dropWhile_cons, h a (by simp)]

theorem dropTrailing_eq_self_of_all {p : Char → Bool} : ∀ {l : Str},
    (∀ c ∈ l, p c = false) → dropTrailing p l = l := by
  intro l h
  induction l with
  | nil => rfl
  | cons a rest ih =>
    have hrest := ih (fun c hc => h c (by simp [hc]))
    simp [dropTrailing, hrest, h a (by simp)]

theorem stripChars_eq_self_of_all {p : Char → Bool} {l : Str}
    (h : ∀ c ∈ l, p c = false) : stripChars p l = l := by
  unfold stripChars
  rw [dropWhile_eq_self_of_all h, dropTrailing_eq_self_of_all h]

theorem map_eq_self_of_all {f : Char → Char} : ∀ {l : Str},
    (∀ c ∈ l, f c = c) → l.map f = l := by
  intro l h
  induction l with
  | nil => rfl
  | cons a rest ih =>
    simp only [List.map_cons, h a (by simp), ih (fun c hc => h c (by simp [hc]))]

theorem mem_of_mem_dropWhile {p : Char → Bool} {c : Char} : ∀ {l : Str},
    c ∈ l.dropWhile p → c ∈ l := by
  intro l h
  induction l with
  | nil => simp at h
  | cons a rest ih =>
    rw [List.dropWhile_cons] at h
    by_cases hp : p a = true
    · simp only [hp, if_true] at h
      exact List.mem_cons_of_mem a (ih h)
    · simp only [hp, if_false] at h
      exact h

theorem mem_of_mem_dropTrailing {p : Char → Bool} {c : Char} : ∀ {l : Str},
    c ∈ dropTrailing p l → c ∈ l := by
  intro l h
  induction l with
  | nil => simp [dropTrailing] at h
  | cons a rest ih =>
    cases hb : (dropTrailing p rest = [] && p a) with
    | true => simp [dropTrailing, hb] at h
    | false =>
      simp only [dropTrailing, hb, Bool.false_eq_true, if_false, List.mem_cons] at h
      rcases h with h | h
      · exact h ▸ List.mem_cons_self a rest
      · exact List.mem_cons_of_mem a (ih h)

theorem mem_of_mem_stripChars {p : Char → Bool} {c : Char} {l : Str}
    (h : c ∈ stripChars p l) : c ∈ l :=
  mem_of_mem_dropWhile (mem_of_mem_dropTrailing h)

theorem head?_dropTrailing {p : Char → Bool} {l : Str}
    (h : dropTrailing p l ≠ []) : (dropTrailing p l).head? = l.head? := by
  cases l with
  | nil => rfl
  | cons a rest =>
    cases hb : (dropTrailing p rest = [] && p a) with
    | true => exact absurd (by simp [dropTrailing, hb]) h
    | false => simp [dropTrailing, hb]

theorem getLast?_dropTrailing {p : Char → Bool} : ∀ {l : Str} {a : Char},
    (dropTrailing p l).getLast? = some a → p a = false := by
  intro l
  induction l with
  | nil => intro a h; simp [dropTrailing] at h
  | cons b rest ih =>
    intro a h
    cases hb : (dropTrailing p rest = [] && p b) with
    | true => simp [dropTrailing, hb] at h
    | false =>
      simp only [dropTrailing, hb, Bool.false_eq_true, if_false] at h
      rcases hr : dropTrailing p rest with _ | ⟨x, xs⟩
      · rw [hr] at h hb
        simp only [List.getLast?_singleton, Option.some_inj] at h
        subst h
        simpa using hb
      · rw [hr] at h
        rw [List.getLast?_cons_cons] at h
        exact ih (hr ▸ h)

theorem getLast?_stripChars {p : Char → Bool} {l : Str} {a : Char}
    (h : (stripChars p l).getLast? = some a) : p a = false :=
  getLast?_dropTrailing h

theorem hasDouble_dropWhile {c : Char} {p : Char → Bool} : ∀ {l : Str},
    hasDoubleChar c l = false → hasDoubleChar c (l.dropWhile p) = false := by
  intro l h
  induction l with
  | nil => simpa using h
  | cons a rest ih =>
    rw [List.dropWhile_cons]
    by_cases hp : p a = true
    · simp only [hp, if_true]
      exact ih (hasDouble_tail h)
    · simpa [hp] using h

theorem hasDouble_dropTrailing {c : Char} {p : Char → Bool} : ∀ {l : Str},
    hasDoubleChar c l = false → hasDoubleChar c (dropTrailing p l) = false := by
  intro l h
  induction l with
  | nil => simpa [dropTrailing] using h
  | cons a rest ih =>
    cases hb : (dropTrailing p rest = [] && p a) with
    | true => simp [dropTrailing, hb, hasDoubleChar]
    | false =>
      simp only [dropTrailing, hb, Bool.false_eq_true, if_false]
      have hrest := ih (hasDouble_tail h)
      rcases hr : dropTrailing p rest with _ | ⟨x, xs⟩
      · simp [hasDoubleChar]
      · have hx : (x :: xs).head? = rest.head? := by
          rw [← hr]; exact head?_dropTrailing (by simp [hr])
        cases rest with
        | nil => simp [dropTrailing] at hr
        | cons y ys =>
          simp only [List.head?_cons, Option.some_inj] at hx
          subst hx
          simp only [hasDoubleChar, Bool.or_eq_false_iff]
          constructor
          · simp only [hasDoubleChar, Bool.or_eq_false_iff] at h
            exact h.1
          · exact hr ▸ hrest

theorem hasDouble_stripChars {c : Char} {p : Char → Bool} {l : Str}
    (h : hasDoubleChar c l = false) : hasDoubleChar c (stripChars p l) = false :=
  hasDouble_dropTrailing (hasDouble_dropWhile h)

theorem getLast?_some_of_ne_nil : ∀ {l : Str}, l ≠ [] → ∃ a, l.getLast? = some a := by
  intro l h
  cases l with
  | nil => exact absurd rfl h
  | cons a rest =>
    induction rest generalizing a with
    | nil => exact ⟨a, rfl⟩
    | cons b bs ih =>
      rcases ih b (by simp) with ⟨x, hx⟩
      exact ⟨x, by rw [List.getLast?_cons_cons]; exact hx⟩

theorem mem_of_getLast?_some : ∀ {l : Str} {a : Char}, l.getLast? = some a → a ∈ l := by
  intro l
  induction l with
  | nil => intro a h; simp at h
  | cons b rest ih =>
    intro a h
    cases rest with
    | nil =>
      simp only [List.getLast?_singleton, Option.some_inj] at h
      simp [h]
    | cons x xs =>
      rw [List.getLast?_cons_cons] at h
      exact List.mem_cons_of_mem b (ih h)

theorem hasDouble_map_replaceDot : ∀ {t : Str}, hasDoubleChar '.' t = false →
    '/' ∉ t → hasDoubleChar '/' (t.map replaceDotChar) = false := by
  intro t hd hs
  induction t with
  | nil => rfl
  | cons a rest ih =>
    cases rest with
    | nil => rfl
    | cons b bs =>
      simp only [List.map_cons]
      simp only [hasDoubleChar, Bool.or_eq_false_iff] at hd ⊢
      refine ⟨?_, ?_⟩
      · have ha : a ≠ '/' := fun h => hs (by simp [h])
        have hb : b ≠ '/' := fun h => hs (by simp [h])
        have : ¬(a = '.' ∧ b = '.') := by
          intro ⟨h1, h2⟩
          simp [h1, h2] at hd
        simp only [Bool.and_eq_false_iff, decide_eq_false_iff_not]
        by_cases hca : a = '.'
        · exact Or.inr (by simp [replaceDotChar, hca, hb]; intro hcb; exact this ⟨hca, hcb⟩)
        · exact Or.inl (by simp [replaceDotChar, hca, ha])
      · have := ih hd.2 (fun h => hs (List.mem_cons_of_mem a h))
        simpa using this

theorem getLast?_map_ne {t : Str} {a : Char} (h : t.getLast? = some a)
    (ha : replaceDotChar a ≠ '/') : (t.map replaceDotChar).getLast? ≠ some '/' := by
  rw [List.getLast?_map, h]
  simpa using ha

theorem hasDouble_snoc {c d : Char} : ∀ {m : Str}, hasDoubleChar c m = false →
    (m.getLast? = some c → d ≠ c) → hasDoubleChar c (m ++ [d]) = false := by
  intro m hm hlast
  induction m with
  | nil => rfl
  | cons a rest ih =>
    cases rest with
    | nil =>
      simp only [List.cons_append, List.nil_append, hasDoubleChar, Bool.or_eq_false_iff]
      refine ⟨?_, by simp [hasDoubleChar]⟩
      simp only [Bool.and_eq_false_iff, decide_eq_false_iff_not]
      by_cases hac : a = c
      · exact Or.inr (hlast (by simp [hac]))
      · exact Or.inl hac
    | cons b bs =>
      simp only [List.cons_append, hasDoubleChar, Bool.or_eq_false_iff] at hm ⊢
      refine ⟨hm.1, ?_⟩
      have := ih hm.2 (fun hb => hlast (by rw [List.getLast?_cons_cons]; exact hb))
      simpa using this

theorem hasDouble_cons {c a : Char} {m : Str} (hm : hasDoubleChar c m = false)
    (h : ¬(a = c ∧ m.head? = some c)) : hasDoubleChar c (a :: m) = false := by
  cases m with
  | nil => rfl
  | cons b rest =>
    simp only [hasDoubleChar, Bool.or_eq_false_iff]
    refine ⟨?_, hm⟩
    simp only [Bool.and_eq_false_iff, decide_eq_false_iff_not]
    by_cases hac : a = c
    · exact Or.inr (fun hbc => h ⟨hac, by simp [hbc]⟩)
    · exact Or.inl hac

theorem to_smali_pref_eq_of_ne {d : Str} (hne : to_smali_pref d ≠ []) :
    to_smali_pref d =
      'L' :: (stripChars (fun c => decide (c = '.'))
        (stripChars isPySpace d)).map replaceDotChar ++ ['/'] ∧
    stripChars (fun c => decide (c = '.')) (stripChars isPySpace d) ≠ [] := by
  by_cases h : stripChars (fun c => decide (c = '.')) (stripChars isPySpace d) = []
  · refine absurd ?_ hne
    simp only [to_smali_pref, h, if_true]
  · refine ⟨?_, h⟩
    simp only [to_smali_pref, h, if_false]

/-- Claim C2 counterexample: the canonicalization function applied to the
already-canonical prefix `Lcom/example/lib/` does not return it unchanged;
it wraps it in a second root marker and separator. -/
theorem c2_idempotent_cex :
    to_smali_pref "Lcom/example/lib/".toList = "LLcom/example/lib//".toList ∧
    to_smali_pref "Lcom/example/lib/".toList ≠ "Lcom/example/lib/".toList := by
  decide

/-- Claim C2 (amended): canonicalization is not idempotent.  For every
already-canonical prefix `p` (no dots, no surrounding whitespace, as in the
root-marked slash-delimited form), re-applying `to_smali_prefix` returns
`"L" ++ p ++ "/"`, a strictly longer string, and in particular not `p`. -/
theorem c2_canonicalize_on_canonical (p : Str)
    (hchars : ∀ c ∈ p, isPySpace c = false ∧ c ≠ '.')
    (hne : p ≠ []) :
    to_smali_pref p = 'L' :: p ++ ['/'] ∧ to_smali_pref p ≠ p := by
  have hws : stripChars isPySpace p = p :=
    stripChars_eq_self_of_all (fun c hc => (hchars c hc).1)
  have hdot : stripChars (fun c => decide (c = '.')) p = p :=
    stripChars_eq_self_of_all (fun c hc => by simp [(hchars c hc).2])
  have hmap : p.map replaceDotChar = p :=
    map_eq_self_of_all (fun c hc => by simp [replaceDotChar, (hchars c hc).2])
  have hkey : to_smali_pref p = 'L' :: p ++ ['/'] := by
    simp only [to_smali_pref, hws, hdot, hne, if_false, hmap]
  refine ⟨hkey, ?_⟩
  intro hcontra
  rw [hkey] at hcontra
  have hlen := congrArg List.length hcontra
  simp only [List.length_cons, List.length_append] at hlen
  omega

/-- Claim C2 witness: the amended statement evaluated at the canonical
prefix `Lcom/example/lib/`. -/
theorem c2_canonicalize_on_canonical_witness :
    to_smali_pref "Lcom/example/lib/".toList =
      'L' :: "Lcom/example/lib/".toList ++ ['/'] ∧
    to_smali_pref "Lcom/example/lib/".toList ≠ "Lcom/example/lib/".toList :=
  c2_canonicalize_on_canonical _ (by decide) (by decide)

/-- Claim C3 counterexample: the dotted identifier `a..b` yields the
non-empty fingerprint `La//b/`, which contains two consecutive separators. -/
theorem c3_shape_cex :
    to_smali_pref "a..b".toList ≠ [] ∧
    hasDoubleChar '/' (to_smali_pref "a..b".toList) = true := by
  decide

/-- Claim C3 (amended): for every dotted identifier `d` that yields a
non-empty fingerprint, `canonicalize(d)` begins with the root marker `L` and
ends with the separator `/`; provided `d` contains no two consecutive dots
and no `/` character, the result also contains no two consecutive
separators. -/
theorem c3_canonicalize_shape (d : Str) (hne : to_smali_pref d ≠ []) :
    (to_smali_pref d).head? = some 'L' ∧ (to_smali_pref d).getLast? = some '/' ∧
    (hasDoubleChar '.' d = false → '/' ∉ d →
      hasDoubleChar '/' (to_smali_pref d) = false) := by
  obtain ⟨heq, htne⟩ := to_smali_pref_eq_of_ne hne
  refine ⟨by rw [heq]; rfl, ?_, ?_⟩
  · rw [heq]; exact List.getLast?_concat _
  · intro hdd hsl
    have hddt : hasDoubleChar '.'
        (stripChars (fun c => decide (c = '.')) (stripChars isPySpace d)) = false :=
      hasDouble_stripChars (hasDouble_stripChars hdd)
    have hslt : '/' ∉ stripChars (fun c => decide (c = '.')) (stripChars isPySpace d) :=
      fun h => hsl (mem_of_mem_stripChars (mem_of_mem_stripChars h))
    have hm := hasDouble_map_replaceDot hddt hslt
    obtain ⟨a, ha⟩ := getLast?_some_of_ne_nil htne
    have hadot : a ≠ '.' := by
      have := getLast?_stripChars ha
      simpa using this
    have haslash : a ≠ '/' := fun h => hslt (h ▸ mem_of_getLast?_some ha)
    have hlastm := getLast?_map_ne ha (by simp [replaceDotChar, hadot, haslash])
    rw [heq]
    refine hasDouble_cons (hasDouble_snoc hm ?_) ?_
    · intro hl
      exact absurd hl hlastm
    · rintro ⟨hLc, -⟩
      simp at hLc

/-- Claim C3 witness: the amended statement evaluated at the dotted
identifier `com.example.lib`, whose fingerprint `Lcom/example/lib/` has no
consecutive separators. -/
theorem c3_canonicalize_shape_witness :
    hasDoubleChar '/' (to_smali_pref "com.example.lib".toList) = false :=
  (c3_canonicalize_shape _ (by decide)).2.2 (by decide) (by decide)

/-! ### Prefix-closure lemmas -/

theorem prefixesGo_length : ∀ (ps : List Str) (acc : Str),
    (prefixesGo acc ps).length = ps.length := by
  intro ps
  induction ps with
  | nil => intro acc; rfl
  | cons p tl ih => intro acc; simp [prefixesGo, ih]

theorem pySplit_ne_nil (sep : Char) : ∀ l : Str, pySplit sep l ≠ [] := by
  intro l
  cases l with
  | nil => simp [pySplit]
  | cons c cs =>
    rcases h : pySplit sep cs with _ | ⟨cur, rest⟩
    · simp [pySplit, h]
    · simp only [pySplit, h]
      split <;> simp

theorem mem_of_pySplit_length (sep : Char) : ∀ {l : Str},
    2 ≤ (pySplit sep l).length → sep ∈ l := by
  intro l h
  induction l with
  | nil => simp [pySplit] at h
  | cons c cs ih =>
    rcases hsp : pySplit sep cs with _ | ⟨cur, rest⟩
    · exact absurd hsp (pySplit_ne_nil sep cs)
    · by_cases hc : c = sep
      · simp [hc]
      · simp only [pySplit, hsp, hc, if_neg, if_false] at h
        simp only [List.length_cons] at h
        have : 2 ≤ (pySplit sep cs).length := by
          rw [hsp]; simp; omega
        exact List.mem_cons_of_mem c (ih this)

theorem body_of_class_desc (body : Str) :
    ((('L' :: body ++ [';'] : Str)).drop 1).dropLast = body := by
  have h1 : (('L' :: body ++ [';'] : Str)).drop 1 = body ++ [';'] := rfl
  rw [h1, List.dropLast_concat]

theorem all_prefixes_class_shape (body : Str) (hs : '/' ∈ body) :
    all_prefixes_for_class ('L' :: body ++ [';']) =
      prefixesGo ['L'] ((pySplit '/' body).dropLast) := by
  have hcond : (('L' :: body ++ [';'] : Str)).head? = some 'L' ∧
      (('L' :: body ++ [';'] : Str)).getLast? = some ';' :=
    ⟨rfl, List.getLast?_concat _⟩
  rw [all_prefixes_for_class, if_pos hcond]
  simp only [body_of_class_desc, hs, if_true]

theorem prefixesGo_get : ∀ (ps : List Str) (acc : Str) (i : Nat) (h : i < ps.length)
    (h' : i < (prefixesGo acc ps).length),
    (prefixesGo acc ps).get ⟨i, h'⟩ = acc ++ slashJoin (ps.take (i + 1)) ++ ['/'] := by
  intro ps
  induction ps with
  | nil => intro acc i h h'; simp at h
  | cons p tl ih =>
    intro acc i h h'
    cases i with
    | zero => simp only [prefixesGo, List.get, List.take, slashJoin]
    | succ i =>
      have hi : i < tl.length := by simpa using h
      have hi' : i < (prefixesGo (acc ++ p ++ ['/']) tl).length := by
        rw [prefixesGo_length]; exact hi
      have hstep : (prefixesGo acc (p :: tl)).get ⟨i + 1, h'⟩ =
          (prefixesGo (acc ++ p ++ ['/']) tl).get ⟨i, hi'⟩ := by
        simp [prefixesGo, List.get_cons_succ]
      rw [hstep, ih _ i hi hi']
      cases tl with
      | nil => simp at hi
      | cons q ts =>
        simp only [List.take, slashJoin]
        simp [List.append_assoc]

theorem prefixesGo_chain : ∀ (ps : List Str) (acc : Str),
    List.Chain' (fun a b => ∃ t, t ≠ [] ∧ b = a ++ t) (prefixesGo acc ps) := by
  intro ps
  induction ps with
  | nil => intro acc; exact List.chain'_nil
  | cons p tl ih =>
    intro acc
    cases tl with
    | nil => simp [prefixesGo]
    | cons q ts =>
      have hchain := ih (acc ++ p ++ ['/'])
      simp only [prefixesGo] at hchain ⊢
      rw [List.chain'_cons]
      refine ⟨⟨q ++ ['/'], by simp, by simp [List.append_assoc]⟩, hchain⟩

/-- Claim C4: for every well-formed class descriptor `L<body>;` whose path
has `k` segments (`k ≥ 2`), the prefix closure has exactly `k - 1` entries;
entry `i` is the canonical prefix of the first `i + 1` segments (so the
closure runs from the shortest prefix, the first segment, to the longest,
all segments but the terminal one); and each entry is a strict textual
prefix of the next. -/
theorem c4_prefix_closure (body : Str) (k : Nat)
    (hk : (pySplit '/' body).length = k) (h2 : 2 ≤ k) :
    (all_prefixes_for_class ('L' :: body ++ [';'])).length = k - 1 ∧
    (∀ i (h : i < (all_prefixes_for_class ('L' :: body ++ [';'])).length),
      (all_prefixes_for_class ('L' :: body ++ [';'])).get ⟨i, h⟩ =
        'L' :: slashJoin ((pySplit '/' body).take (i + 1)) ++ ['/']) ∧
    List.Chain' (fun a b => ∃ t, t ≠ [] ∧ b = a ++ t)
      (all_prefixes_for_class ('L' :: body ++ [';'])) := by
  have hs : '/' ∈ body := mem_of_pySplit_length '/' (by omega)
  have hshape := all_prefixes_class_shape body hs
  have hlen : (all_prefixes_for_class ('L' :: body ++ [';'])).length = k - 1 := by
    rw [hshape, prefixesGo_length, List.length_dropLast, hk]
  refine ⟨hlen, ?_, ?_⟩
  · intro i h
    have hi : i < ((pySplit '/' body).dropLast).length := by
      rw [List.length_dropLast, hk]
      omega
    have hi' : i < (prefixesGo ['L'] ((pySplit '/' body).dropLast)).length := by
      rw [prefixesGo_length]; exact hi
    have hget := prefixesGo_get ((pySplit '/' body).dropLast) ['L'] i hi hi'
    have heq1 : (all_prefixes_for_class ('L' :: body ++ [';'])).get ⟨i, h⟩ =
        (prefixesGo ['L'] ((pySplit '/' body).dropLast)).get ⟨i, hi'⟩ := by
      exact List.get_of_eq hshape ⟨i, h⟩
    rw [heq1, hget]
    have htake : ((pySplit '/' body).dropLast).take (i + 1) =
        (pySplit '/' body).take (i + 1) := by
      rw [List.dropLast_eq_take, List.take_take]
      congr 1
      rw [hk]
      rw [List.length_dropLast, hk] at hi
      omega
    rw [htake]
    rfl
  · rw [hshape]
    exact prefixesGo_chain _ _

/-- Claim C4 witness: the descriptor `Lcom/foo/bar/Baz;` has 4 path segments
and its prefix closure has exactly 3 entries. -/
theorem c4_prefix_closure_witness :
    (all_prefixes_for_class ('L' :: "com/foo/bar/Baz".toList ++ [';'])).length = 4 - 1 :=
  (c4_prefix_closure "com/foo/bar/Baz".toList 4 (by decide) (by decide)).1

/-! ### Per-repository fingerprint deduplication -/

theorem dedupGo_keys_nodup : ∀ (l : List Fp3) (seen : List (Str × Str)),
    ((dedupGo seen l).map (fun f => (f.smali, f.typ))).Nodup ∧
    ∀ x ∈ (dedupGo seen l).map (fun f => (f.smali, f.typ)), x ∉ seen := by
  intro l
  induction l with
  | nil => intro seen; exact ⟨List.nodup_nil, by simp [dedupGo]⟩
  | cons f rest ih =>
    intro seen
    by_cases h : (f.smali, f.typ) ∈ seen
    · simpa [dedupGo, h] using ih seen
    · obtain ⟨ihn, ihd⟩ := ih ((f.smali, f.typ) :: seen)
      refine ⟨?_, ?_⟩
      · simp only [dedupGo, h, if_false, List.map_cons, List.nodup_cons]
        exact ⟨fun hx => (ihd _ hx) (List.mem_cons_self _ _), ihn⟩
      · intro x hx
        simp only [dedupGo, h, if_false, List.map_cons, List.mem_cons] at hx
        rcases hx with hx | hx
        · exact hx ▸ h
        · exact fun hxs => (ihd x hx) (List.mem_cons_of_mem _ hxs)

/-- Claim C6: for every repository, the fingerprint rows emitted by
`process_one_repo` contain each `(prefix, evidence_kind)` pair at most once,
however many detector hits evidenced it. -/
theorem c6_repo_fingerprints_unique (host repo_path url : Str) (fps : List Fp3) :
    ((process_one_repo_rows host repo_path url fps).map
      (fun r => (r.smali_pref, r.fingerprint_type))).Nodup := by
  unfold process_one_repo_rows
  rw [List.map_map]
  exact (dedupGo_keys_nodup fps []).1

/-! ### Matching-engine invariants -/

theorem foldl_pres {α β : Type} (Inv : β → Prop) (f : β → α → β)
    (hstep : ∀ st a, Inv st → Inv (f st a)) :
    ∀ (l : List α) (st : β), Inv st → Inv (l.foldl f st) := by
  intro l
  induction l with
  | nil => intro st h; exact h
  | cons a rest ih => intro st h; exact ih _ (hstep st a h)

theorem processEntry_dedup (sha : Str) (c : ClassEntry) (st : MatchSt) (e : FpRow)
    (h : st.1.Nodup ∧ st.1 = (st.2.map keyOfRow).reverse) :
    (processEntry sha c st e).1.Nodup ∧
    (processEntry sha c st e).1 = ((processEntry sha c st e).2.map keyOfRow).reverse := by
  obtain ⟨hn, he⟩ := h
  unfold processEntry
  by_cases hk : (c.cls, e.smali_pref, e.repo_host, e.repo_path) ∈ st.1
  · rw [if_pos hk]
    exact ⟨hn, he⟩
  · rw [if_neg hk]
    refine ⟨List.nodup_cons.mpr ⟨hk, hn⟩, ?_⟩
    simp only [List.map_append, List.map_cons, List.map_nil, List.reverse_append,
      List.reverse_cons, List.reverse_nil, List.nil_append, List.cons_append]
    rw [← he]
    rfl

theorem processPref_dedup (pm : List (Str × List FpRow)) (sha : Str) (c : ClassEntry)
    (st : MatchSt) (pref : Str)
    (h : st.1.Nodup ∧ st.1 = (st.2.map keyOfRow).reverse) :
    (processPref pm sha c st pref).1.Nodup ∧
    (processPref pm sha c st pref).1 =
      ((processPref pm sha c st pref).2.map keyOfRow).reverse := by
  unfold processPref
  by_cases hc : pmContains pm pref = true
  · rw [if_pos hc]
    exact foldl_pres
      (fun st => st.1.Nodup ∧ st.1 = (st.2.map keyOfRow).reverse)
      (processEntry sha c) (fun st e h => processEntry_dedup sha c st e h)
      (pmLookup pm pref) st h
  · rw [if_neg hc]
    exact h

theorem match_app_keys_nodup (pm : List (Str × List FpRow)) (sha : Str)
    (classes : List ClassEntry) : ((match_app pm sha classes).map keyOfRow).Nodup := by
  have hinv := foldl_pres
    (fun st : MatchSt => st.1.Nodup ∧ st.1 = (st.2.map keyOfRow).reverse)
    (processClass pm sha)
    (fun st c h => foldl_pres
      (fun st : MatchSt => st.1.Nodup ∧ st.1 = (st.2.map keyOfRow).reverse)
      (processPref pm sha c) (fun st pref h => processPref_dedup pm sha c st pref h)
      (all_prefixes_for_class c.cls) st h)
    classes ([], []) ⟨List.nodup_nil, rfl⟩
  have := hinv.2 ▸ hinv.1
  rw [← List.nodup_reverse]
  exact this

theorem filter_key_le_one {R : List MatchRow} (h : (R.map keyOfRow).Nodup)
    (k : Str × Str × Str × Str) :
    (R.filter (fun r => decide (keyOfRow r = k))).length ≤ 1 := by
  induction R with
  | nil => simp
  | cons r rest ih =>
    simp only [List.map_cons, List.nodup_cons] at h
    by_cases hk : keyOfRow r = k
    · have hnil : rest.filter (fun r => decide (keyOfRow r = k)) = [] := by
        rw [List.filter_eq_nil_iff]
        intro a ha
        simp only [decide_eq_true_eq]
        intro hak
        exact h.1 (by rw [hk, ← hak]; exact List.mem_map_of_mem keyOfRow ha)
      simp [List.filter_cons, hk, hnil]
    · have hd : (decide (keyOfRow r = k)) = false := by simp [hk]
      simp only [List.filter_cons, hd, Bool.false_eq_true, if_false]
      exact ih h.2

/-- Claim C1 counterexample: a corpus in which the same repository `a/repoA`
fingerprints both `Lcom/foo/` and `Lcom/foo/bar/` credits that repository
twice for the single class `Lcom/foo/bar/Baz;` — one Match Record per
matching ancestor prefix, not one per repository. -/
theorem c1_single_credit_cex :
    ((match_app
        (load_fingerprints
          [{ repo_host := "github".toList, repo_path := "a/repoA".toList,
             repo_url := "u".toList, libarary_key := "a/repoA".toList,
             library_name := "repoA".toList, smali_pref := "Lcom/foo/".toList,
             fingerprint_type := "java_package".toList, repo_file_path := "f".toList },
           { repo_host := "github".toList, repo_path := "a/repoA".toList,
             repo_url := "u".toList, libarary_key := "a/repoA".toList,
             library_name := "repoA".toList, smali_pref := "Lcom/foo/bar/".toList,
             fingerprint_type := "manifest_package".toList, repo_file_path := "f".toList }])
        "s".toList [⟨"Lcom/foo/bar/Baz;".toList, "f1".toList⟩]).filter
      (fun r => decide (r.cls = "Lcom/foo/bar/Baz;".toList ∧
        r.repo_host = "github".toList ∧ r.repo_path = "a/repoA".toList))).length = 2 := by
  decide

/-- Claim C1 (amended): the Matching Engine emits at most one Match Record
per `(class_descriptor, prefix, origin_repository)` triple; a repository may
be credited more than once for the same class when several of its ancestor
prefixes resolve to that repository, but never twice for the same prefix. -/
theorem c1_dedup_key (pm : List (Str × List FpRow)) (sha : Str)
    (classes : List ClassEntry) (cls p host rpath : Str) :
    ((match_app pm sha classes).filter
      (fun r => decide (keyOfRow r = (cls, p, host, rpath)))).length ≤ 1 :=
  filter_key_le_one (match_app_keys_nodup pm sha classes) _

theorem entsFold_origin (pm : List (Str × List FpRow)) (sha : Str) (c : ClassEntry)
    (pref : Str) (hpref : pref ∈ all_prefixes_for_class c.cls) :
    ∀ (es : List FpRow) (st : MatchSt), (∀ e ∈ es, e ∈ pmLookup pm pref) →
    (∀ r ∈ st.2, ∃ q e, q ∈ all_prefixes_for_class r.cls ∧ e ∈ pmLookup pm q ∧
      r.smali_pref = e.smali_pref) →
    ∀ r ∈ (es.foldl (processEntry sha c) st).2, ∃ q e,
      q ∈ all_prefixes_for_class r.cls ∧ e ∈ pmLookup pm q ∧
      r.smali_pref = e.smali_pref := by
  intro es
  induction es with
  | nil => intro st _ hinv r hr; exact hinv r hr
  | cons e tl ih =>
    intro st hsub hinv
    refine ih _ (fun x hx => hsub x (List.mem_cons_of_mem e hx)) ?_
    intro r hr
    unfold processEntry at hr
    by_cases hk : (c.cls, e.smali_pref, e.repo_host, e.repo_path) ∈ st.1
    · rw [if_pos hk] at hr
      exact hinv r hr
    · rw [if_neg hk] at hr
      rcases List.mem_append.mp hr with hr | hr
      · exact hinv r hr
      · have hre : r = mkRow sha c e := by simpa using hr
        subst hre
        exact ⟨pref, e, by simpa [mkRow] using hpref,
          hsub e (List.mem_cons_self e tl), rfl⟩

theorem prefsFold_origin (pm : List (Str × List FpRow)) (sha : Str) (c : ClassEntry) :
    ∀ (prefs : List Str), (∀ q ∈ prefs, q ∈ all_prefixes_for_class c.cls) →
    ∀ st : MatchSt,
    (∀ r ∈ st.2, ∃ q e, q ∈ all_prefixes_for_class r.cls ∧ e ∈ pmLookup pm q ∧
      r.smali_pref = e.smali_pref) →
    ∀ r ∈ (prefs.foldl (processPref pm sha c) st).2, ∃ q e,
      q ∈ all_prefixes_for_class r.cls ∧ e ∈ pmLookup pm q ∧
      r.smali_pref = e.smali_pref := by
  intro prefs
  induction prefs with
  | nil => intro _ st hinv r hr; exact hinv r hr
  | cons p tl ih =>
    intro hmem st hinv
    refine ih (fun q hq => hmem q (List.mem_cons_of_mem p hq)) _ ?_
    unfold processPref
    by_cases hc : pmContains pm p = true
    · rw [if_pos hc]
      exact entsFold_origin pm sha c p (hmem p (List.mem_cons_self p tl))
        (pmLookup pm p) st (fun e he => he) hinv
    · rw [if_neg hc]
      exact hinv

theorem match_app_origin (pm : List (Str × List FpRow)) (sha : Str)
    (classes : List ClassEntry) :
    ∀ r ∈ match_app pm sha classes, ∃ q e,
      q ∈ all_prefixes_for_class r.cls ∧ e ∈ pmLookup pm q ∧
      r.smali_pref = e.smali_pref := by
  unfold match_app
  have hinv := foldl_pres
    (fun st : MatchSt => ∀ r ∈ st.2, ∃ q e, q ∈ all_prefixes_for_class r.cls ∧
      e ∈ pmLookup pm q ∧ r.smali_pref = e.smali_pref)
    (processClass pm sha)
    (fun st c h => prefsFold_origin pm sha c (all_prefixes_for_class c.cls)
      (fun q hq => hq) st h)
    classes ([], []) (by simp)
  exact hinv

/-- Claim C5 counterexample: a file declaring the single-segment class
`LHelper;` is not excluded from the Class Indexer's output; the indexer
records it like any other class declaration. -/
theorem c5_indexer_exclusion_cex :
    index_classes_for_app
      [("Helper.smali".toList, [".class public LHelper;".toList])] =
      [⟨"LHelper;".toList, "Helper.smali".toList⟩] := by
  decide

/-- Claim C5 (amended): a class declared in a default/root namespace (no
separator in the descriptor body) yields an empty prefix closure and can
never be the class of any Match Record, whatever the corpus; it is,
however, still included in the Class Indexer's output — the exclusion
happens at matching time, not at indexing time. -/
theorem c5_root_namespace_no_match :
    (∀ s : Str, '/' ∉ (s.drop 1).dropLast → all_prefixes_for_class s = []) ∧
    (∀ (pm : List (Str × List FpRow)) (sha : Str) (classes : List ClassEntry)
      (r : MatchRow), r ∈ match_app pm sha classes →
      all_prefixes_for_class r.cls ≠ []) ∧
    index_classes_for_app
      [("Helper.smali".toList, [".class public LHelper;".toList])] =
      [⟨"LHelper;".toList, "Helper.smali".toList⟩] := by
  refine ⟨?_, ?_, by decide⟩
  · intro s hs
    unfold all_prefixes_for_class
    by_cases hc : s.head? = some 'L' ∧ s.getLast? = some ';'
    · rw [if_pos hc, if_neg hs]
    · rw [if_neg hc]
  · intro pm sha classes r hr
    obtain ⟨q, e, hq, -, -⟩ := match_app_origin pm sha classes r hr
    exact List.ne_nil_of_mem hq

/-- Claim C5 witness: the single-segment descriptor `LHelper;` has an empty
prefix closure. -/
theorem c5_root_namespace_no_match_witness :
    all_prefixes_for_class "LHelper;".toList = [] :=
  c5_root_namespace_no_match.1 "LHelper;".toList (by decide)

/-! ### Corpus-loading invariants -/

theorem pmAppend_inv (P : Str → Prop) :
    ∀ (m : List (Str × List FpRow)) (q : Str) (e : FpRow),
    (∀ kv ∈ m, P kv.1 ∧ ∀ x ∈ kv.2, x.smali_pref = kv.1) →
    P q → e.smali_pref = q →
    ∀ kv ∈ pmAppend m q e, P kv.1 ∧ ∀ x ∈ kv.2, x.smali_pref = kv.1 := by
  intro m
  induction m with
  | nil =>
    intro q e _ hq he kv hkv
    simp only [pmAppend, List.mem_singleton] at hkv
    subst hkv
    exact ⟨hq, by simpa using he⟩
  | cons kv0 rest ih =>
    intro q e hm hq he kv hkv
    obtain ⟨k, v⟩ := kv0
    by_cases hk : k = q
    · simp only [pmAppend, hk, if_true, List.mem_cons] at hkv
      rcases hkv with hkv | hkv
      · subst hkv
        refine ⟨(hm (q, v) (by simp [← hk])).1, ?_⟩
        intro x hx
        rcases List.mem_append.mp hx with hx | hx
        · exact (hm (q, v) (by simp [← hk])).2 x hx
        · simp only [List.mem_singleton] at hx
          exact hx ▸ he
      · exact hm kv (List.mem_cons_of_mem _ hkv)
    · simp only [pmAppend, hk, if_false, List.mem_cons] at hkv
      rcases hkv with hkv | hkv
      · exact hkv ▸ hm (k, v) (List.mem_cons_self _ _)
      · exact ih q e (fun x hx => hm x (List.mem_cons_of_mem _ hx)) hq he kv hkv

theorem load_fingerprints_inv (rows : List FpRow) :
    ∀ kv ∈ load_fingerprints rows,
      (kv.1 ≠ [] ∧ kv.1.head? = some 'L' ∧ kv.1.getLast? = some '/') ∧
      ∀ e ∈ kv.2, e.smali_pref = kv.1 := by
  unfold load_fingerprints
  refine foldl_pres
    (fun m : List (Str × List FpRow) => ∀ kv ∈ m,
      (kv.1 ≠ [] ∧ kv.1.head? = some 'L' ∧
        kv.1.getLast? = some '/') ∧ ∀ e ∈ kv.2, e.smali_pref = kv.1)
    _ ?_ rows [] (by simp)
  intro m row h
  unfold loadStep
  by_cases hc : stripChars isPySpace row.smali_pref = [] ∨
      (stripChars isPySpace row.smali_pref).head? ≠ some 'L' ∨
      (stripChars isPySpace row.smali_pref).getLast? ≠ some '/'
  · simpa [hc] using h
  · have hcond := hc
    push_neg at hc
    simp only [if_neg hcond]
    exact pmAppend_inv
      (fun k => k ≠ [] ∧ k.head? = some 'L' ∧ k.getLast? = some '/')
      m _ _ h ⟨hc.1, hc.2.1, hc.2.2⟩ rfl

theorem pmLookup_mem : ∀ {m : List (Str × List FpRow)} {p : Str} {e : FpRow},
    e ∈ pmLookup m p → ∃ v, (p, v) ∈ m ∧ e ∈ v := by
  intro m
  induction m with
  | nil => intro p e h; simp [pmLookup] at h
  | cons kv rest ih =>
    intro p e h
    obtain ⟨k, v⟩ := kv
    by_cases hk : k = p
    · simp only [pmLookup, hk, if_true] at h
      exact ⟨v, by simp [hk], h⟩
    · simp only [pmLookup, hk, if_false] at h
      obtain ⟨v', hv', he⟩ := ih h
      exact ⟨v', List.mem_cons_of_mem _ hv', he⟩

theorem mem_of_pmContains : ∀ {m : List (Str × List FpRow)} {p : Str},
    pmContains m p = true → ∃ v, (p, v) ∈ m := by
  intro m
  induction m with
  | nil => intro p h; simp [pmContains] at h
  | cons kv rest ih =>
    intro p h
    obtain ⟨k, v⟩ := kv
    by_cases hk : k = p
    · exact ⟨v, by simp [hk]⟩
    · have h2 : pmContains rest p = true := by
        simp only [pmContains, Bool.or_eq_true, decide_eq_true_eq] at h
        rcases h with h | h
        · exact absurd h hk
        · exact h
      obtain ⟨v', hv'⟩ := ih h2
      exact ⟨v', List.mem_cons_of_mem _ hv'⟩

theorem pmLookup_eq_nil_of_not_contains : ∀ {m : List (Str × List FpRow)} {p : Str},
    pmContains m p = false → pmLookup m p = [] := by
  intro m
  induction m with
  | nil => intro p _; rfl
  | cons kv rest ih =>
    intro p h
    obtain ⟨k, v⟩ := kv
    simp only [pmContains, Bool.or_eq_false_iff, decide_eq_false_iff_not] at h
    simp only [pmLookup, h.1, if_false]
    exact ih h.2

/-- Claim C10: every prefix key of the loaded Fingerprint Corpus is
non-empty, starts with the root marker `L` and ends with the separator `/`;
a row whose (stripped) prefix is not of this form is silently discarded at
load time, so such a prefix has an empty lookup result; and every Match
Record produced from a loaded corpus carries a prefix of this canonical
form. -/
theorem c10_corpus_keys_canonical :
    (∀ (rows : List FpRow) (p : Str),
      pmContains (load_fingerprints rows) p = true →
      p ≠ [] ∧ p.head? = some 'L' ∧ p.getLast? = some '/') ∧
    (∀ (rows : List FpRow) (p : Str),
      ¬(p ≠ [] ∧ p.head? = some 'L' ∧ p.getLast? = some '/') →
      pmLookup (load_fingerprints rows) p = []) ∧
    (∀ (rows : List FpRow) (sha : Str) (classes : List ClassEntry) (r : MatchRow),
      r ∈ match_app (load_fingerprints rows) sha classes →
      r.smali_pref.head? = some 'L' ∧ r.smali_pref.getLast? = some '/') := by
  have hkey : ∀ (rows : List FpRow) (p : Str),
      pmContains (load_fingerprints rows) p = true →
      p ≠ [] ∧ p.head? = some 'L' ∧ p.getLast? = some '/' := by
    intro rows p h
    obtain ⟨v, hv⟩ := mem_of_pmContains h
    exact (load_fingerprints_inv rows (p, v) hv).1
  refine ⟨hkey, ?_, ?_⟩
  · intro rows p h
    cases hc : pmContains (load_fingerprints rows) p with
    | false => exact pmLookup_eq_nil_of_not_contains hc
    | true => exact absurd (hkey rows p hc) h
  · intro rows sha classes r hr
    obtain ⟨q, e, -, he, hpr⟩ := match_app_origin (load_fingerprints rows) sha classes r hr
    obtain ⟨v, hv, hev⟩ := pmLookup_mem he
    have hinv := load_fingerprints_inv rows (q, v) hv
    have : e.smali_pref = q := hinv.2 e hev
    rw [hpr, this]
    exact ⟨hinv.1.2.1, hinv.1.2.2⟩

/-- Claim C10 witness: the canonical-key part evaluated on a one-row corpus
whose prefix is `Lx/`. -/
theorem c10_corpus_keys_canonical_witness :
    ("Lx/".toList ≠ ([] : Str)) ∧ "Lx/".toList.head? = some 'L' ∧
      "Lx/".toList.getLast? = some '/' :=
  c10_corpus_keys_canonical.1
    [{ repo_host := "h".toList, repo_path := "o/r".toList, repo_url := "u".toList,
       libarary_key := "o/r".toList, library_name := "r".toList,
       smali_pref := "Lx/".toList, fingerprint_type := "java_package".toList,
       repo_file_path := "f".toList }]
    "Lx/".toList (by decide)

/-! ### Corpus retention under shared prefixes -/

theorem pmLookup_pmAppend : ∀ (m : List (Str × List FpRow)) (q : Str) (e : FpRow)
    (q' : Str), pmLookup (pmAppend m q e) q' =
      if q' = q then pmLookup m q ++ [e] else pmLookup m q' := by
  intro m
  induction m with
  | nil =>
    intro q e q'
    by_cases h : q' = q
    · subst h; simp [pmAppend, pmLookup]
    · simp [pmAppend, pmLookup, h, Ne.symm h]
  | cons kv rest ih =>
    intro q e q'
    obtain ⟨k, v⟩ := kv
    by_cases hk : k = q
    · subst hk
      simp only [pmAppend, if_pos rfl]
      by_cases h : q' = k
      · subst h; simp [pmLookup]
      · simp [pmLookup, h, Ne.symm h]
    · simp only [pmAppend, hk, if_false]
      by_cases h : k = q'
      · subst h
        simp [pmLookup, hk]
      · have hl : pmLookup ((k, v) :: pmAppend rest q e) q' =
            pmLookup (pmAppend rest q e) q' := by
          simp [pmLookup, h]
        rw [hl, ih]
        by_cases hq : q' = q
        · rw [if_pos hq, if_pos hq]
          congr 1
          simp [pmLookup, hk]
        · rw [if_neg hq, if_neg hq]
          simp [pmLookup, h]

theorem pmLookup_loadStep_mono (m : List (Str × List FpRow)) (row : FpRow)
    (q : Str) (e : FpRow) (h : e ∈ pmLookup m q) :
    e ∈ pmLookup (loadStep m row) q := by
  simp only [loadStep]
  split
  · exact h
  · rw [pmLookup_pmAppend]
    by_cases hq : q = stripChars isPySpace row.smali_pref
    · rw [if_pos hq, ← hq]
      exact List.mem_append_left _ h
    · rw [if_neg hq]
      exact h

theorem pmLookup_foldl_mono : ∀ (rows : List FpRow) (m : List (Str × List FpRow))
    (q : Str) (e : FpRow), e ∈ pmLookup m q →
    e ∈ pmLookup (rows.foldl loadStep m) q := by
  intro rows
  induction rows with
  | nil => intro m q e h; exact h
  | cons r0 tl ih =>
    intro m q e h
    rw [List.foldl_cons]
    exact ih _ q e (pmLookup_loadStep_mono m r0 q e h)

theorem load_retains : ∀ (rows : List FpRow) (m : List (Str × List FpRow))
    (r : FpRow), r ∈ rows →
    stripChars isPySpace r.smali_pref ≠ [] →
    (stripChars isPySpace r.smali_pref).head? = some 'L' →
    (stripChars isPySpace r.smali_pref).getLast? = some '/' →
    { r with smali_pref := stripChars isPySpace r.smali_pref } ∈
      pmLookup (rows.foldl loadStep m) (stripChars isPySpace r.smali_pref) := by
  intro rows
  induction rows with
  | nil => intro m r h; simp at h
  | cons r0 tl ih =>
    intro m r hmem h1 h2 h3
    rcases List.mem_cons.mp hmem with heq | hmem
    · subst heq
      rw [List.foldl_cons]
      apply pmLookup_foldl_mono
      unfold loadStep
      rw [if_neg (by push_neg; exact ⟨h1, h2, h3⟩)]
      rw [pmLookup_pmAppend, if_pos rfl]
      exact List.mem_append_right _ (List.mem_singleton.mpr rfl)
    · rw [List.foldl_cons]
      exact ih _ r hmem h1 h2 h3

/-- Claim C7: when several rows share a namespace prefix the corpus retains
an entry for each of them under that key (no fingerprint is dropped on a
collision); in the spec's end-to-end example two repositories `a/repoA` and
`b/repoB` both declare `Lcom/util/`, both entries are stored under that key,
and the target class `Lcom/util/String;` produces one Match Record per
repository — two in total, not merged into one. -/
theorem c7_shared_prefix_both_credited :
    (∀ (rows : List FpRow) (r : FpRow), r ∈ rows →
      stripChars isPySpace r.smali_pref ≠ [] →
      (stripChars isPySpace r.smali_pref).head? = some 'L' →
      (stripChars isPySpace r.smali_pref).getLast? = some '/' →
      { r with smali_pref := stripChars isPySpace r.smali_pref } ∈
        pmLookup (load_fingerprints rows) (stripChars isPySpace r.smali_pref)) ∧
    (pmLookup
        (load_fingerprints
          [{ repo_host := "github".toList, repo_path := "a/repoA".toList,
             repo_url := "u1".toList, libarary_key := "a/repoA".toList,
             library_name := "repoA".toList, smali_pref := "Lcom/util/".toList,
             fingerprint_type := "java_package".toList, repo_file_path := "f1".toList },
           { repo_host := "github".toList, repo_path := "b/repoB".toList,
             repo_url := "u2".toList, libarary_key := "b/repoB".toList,
             library_name := "repoB".toList, smali_pref := "Lcom/util/".toList,
             fingerprint_type := "java_package".toList, repo_file_path := "f2".toList }])
        "Lcom/util/".toList).length = 2 ∧
    (match_app
        (load_fingerprints
          [{ repo_host := "github".toList, repo_path := "a/repoA".toList,
             repo_url := "u1".toList, libarary_key := "a/repoA".toList,
             library_name := "repoA".toList, smali_pref := "Lcom/util/".toList,
             fingerprint_type := "java_package".toList, repo_file_path := "f1".toList },
           { repo_host := "github".toList, repo_path := "b/repoB".toList,
             repo_url := "u2".toList, libarary_key := "b/repoB".toList,
             library_name := "repoB".toList, smali_pref := "Lcom/util/".toList,
             fingerprint_type := "java_package".toList, repo_file_path := "f2".toList }])
        "s".toList [⟨"Lcom/util/String;".toList, "f1".toList⟩]).map
      (fun r => (r.repo_host, r.repo_path)) =
      [("github".toList, "a/repoA".toList), ("github".toList, "b/repoB".toList)] := by
  refine ⟨?_, by decide, by decide⟩
  intro rows r hmem h1 h2 h3
  exact load_retains rows [] r hmem h1 h2 h3

/-- Claim C7 witness: the retention part evaluated on a two-row corpus where
both repositories declare `Lcom/util/`; the second repository's entry is
still present under that key. -/
theorem c7_shared_prefix_both_credited_witness :
    { repo_host := "github".toList, repo_path := "b/repoB".toList,
      repo_url := "u2".toList, libarary_key := "b/repoB".toList,
      library_name := "repoB".toList,
      smali_pref := stripChars isPySpace "Lcom/util/".toList,
      fingerprint_type := "java_package".toList,
      repo_file_path := "f2".toList : FpRow } ∈
      pmLookup
        (load_fingerprints
          [{ repo_host := "github".toList, repo_path := "a/repoA".toList,
             repo_url := "u1".toList, libarary_key := "a/repoA".toList,
             library_name := "repoA".toList, smali_pref := "Lcom/util/".toList,
             fingerprint_type := "java_package".toList, repo_file_path := "f1".toList },
           { repo_host := "github".toList, repo_path := "b/repoB".toList,
             repo_url := "u2".toList, libarary_key := "b/repoB".toList,
             library_name := "repoB".toList, smali_pref := "Lcom/util/".toList,
             fingerprint_type := "java_package".toList, repo_file_path := "f2".toList }])
        (stripChars isPySpace "Lcom/util/".toList) :=
  c7_shared_prefix_both_credited.1 _
    { repo_host := "github".toList, repo_path := "b/repoB".toList,
      repo_url := "u2".toList, libarary_key := "b/repoB".toList,
      library_name := "repoB".toList, smali_pref := "Lcom/util/".toList,
      fingerprint_type := "java_package".toList, repo_file_path := "f2".toList }
    (by simp) (by decide) (by decide) (by decide)

/-! ### Factorization of the matching fold over classes -/

theorem entsFold_split (sha : Str) (c : ClassEntry) :
    ∀ (es : List FpRow) (E1 E0 : List (Str × Str × Str × Str)) (R : List MatchRow),
    (∀ k ∈ E1, k.1 = c.cls) → (∀ k ∈ E0, k.1 ≠ c.cls) →
    es.foldl (processEntry sha c) (E1 ++ E0, R) =
      ((es.foldl (processEntry sha c) (E1, [])).1 ++ E0,
       R ++ (es.foldl (processEntry sha c) (E1, [])).2) := by
  intro es
  induction es with
  | nil => intro E1 E0 R _ _; simp
  | cons e tl ih =>
    intro E1 E0 R h1 h0
    rw [List.foldl_cons, List.foldl_cons]
    have hkey : ((c.cls, e.smali_pref, e.repo_host, e.repo_path) ∈ E1 ++ E0) ↔
        ((c.cls, e.smali_pref, e.repo_host, e.repo_path) ∈ E1) := by
      constructor
      · intro hm
        rcases List.mem_append.mp hm with hm | hm
        · exact hm
        · exact absurd rfl (h0 _ hm)
      · exact List.mem_append_left E0
    by_cases hk : (c.cls, e.smali_pref, e.repo_host, e.repo_path) ∈ E1
    · have hst : processEntry sha c (E1 ++ E0, R) e = (E1 ++ E0, R) := by
        unfold processEntry
        rw [if_pos (hkey.mpr hk)]
      have hst2 : processEntry sha c (E1, []) e = (E1, []) := by
        unfold processEntry
        rw [if_pos hk]
      rw [hst, hst2]
      exact ih E1 E0 R h1 h0
    · have hst : processEntry sha c (E1 ++ E0, R) e =
          (((c.cls, e.smali_pref, e.repo_host, e.repo_path) :: E1) ++ E0,
           R ++ [mkRow sha c e]) := by
        unfold processEntry
        rw [if_neg (fun hm => hk (hkey.mp hm))]
        rfl
      have hst2 : processEntry sha c (E1, []) e =
          ((c.cls, e.smali_pref, e.repo_host, e.repo_path) :: E1, [mkRow sha c e]) := by
        unfold processEntry
        rw [if_neg hk]
        rfl
      rw [hst, hst2]
      have h1' : ∀ k ∈ (c.cls, e.smali_pref, e.repo_host, e.repo_path) :: E1,
          k.1 = c.cls := by
        intro k hkm
        rcases List.mem_cons.mp hkm with hkm | hkm
        · rw [hkm]
        · exact h1 k hkm
      rw [ih _ E0 _ h1' h0]
      have hiso := ih ((c.cls, e.smali_pref, e.repo_host, e.repo_path) :: E1) []
        [mkRow sha c e] h1' (by simp)
      simp only [List.append_nil] at hiso
      rw [hiso]
      simp [List.append_assoc]

theorem entsFold_keys_cls (sha : Str) (c : ClassEntry) :
    ∀ (es : List FpRow) (st : MatchSt), (∀ k ∈ st.1, k.1 = c.cls) →
    ∀ k ∈ (es.foldl (processEntry sha c) st).1, k.1 = c.cls := by
  intro es
  induction es with
  | nil => intro st h; exact h
  | cons e tl ih =>
    intro st h
    rw [List.foldl_cons]
    refine ih _ ?_
    unfold processEntry
    by_cases hk : (c.cls, e.smali_pref, e.repo_host, e.repo_path) ∈ st.1
    · rw [if_pos hk]; exact h
    · rw [if_neg hk]
      intro k hkm
      rcases List.mem_cons.mp hkm with hkm | hkm
      · rw [hkm]
      · exact h k hkm

theorem prefsFold_split (pm : List (Str × List FpRow)) (sha : Str) (c : ClassEntry) :
    ∀ (prefs : List Str) (E1 E0 : List (Str × Str × Str × Str)) (R : List MatchRow),
    (∀ k ∈ E1, k.1 = c.cls) → (∀ k ∈ E0, k.1 ≠ c.cls) →
    prefs.foldl (processPref pm sha c) (E1 ++ E0, R) =
      ((prefs.foldl (processPref pm sha c) (E1, [])).1 ++ E0,
       R ++ (prefs.foldl (processPref pm sha c) (E1, [])).2) := by
  intro prefs
  induction prefs with
  | nil => intro E1 E0 R _ _; simp
  | cons p tl ih =>
    intro E1 E0 R h1 h0
    rw [List.foldl_cons, List.foldl_cons]
    by_cases hc : pmContains pm p = true
    · have hst : processPref pm sha c (E1 ++ E0, R) p =
          (((pmLookup pm p).foldl (processEntry sha c) (E1, [])).1 ++ E0,
           R ++ ((pmLookup pm p).foldl (processEntry sha c) (E1, [])).2) := by
        unfold processPref
        rw [if_pos hc]
        exact entsFold_split sha c (pmLookup pm p) E1 E0 R h1 h0
      have hst2 : processPref pm sha c (E1, []) p =
          (pmLookup pm p).foldl (processEntry sha c) (E1, []) := by
        unfold processPref
        rw [if_pos hc]
      rw [hst, hst2]
      have h1' : ∀ k ∈ ((pmLookup pm p).foldl (processEntry sha c) (E1, [])).1,
          k.1 = c.cls := entsFold_keys_cls sha c (pmLookup pm p) (E1, []) h1
      rw [ih _ E0 _ h1' h0]
      have hiso := ih ((pmLookup pm p).foldl (processEntry sha c) (E1, [])).1 []
        ((pmLookup pm p).foldl (processEntry sha c) (E1, [])).2 h1' (by simp)
      simp only [List.append_nil] at hiso
      rw [hiso]
      simp [List.append_assoc]
    · have hst : processPref pm sha c (E1 ++ E0, R) p = (E1 ++ E0, R) := by
        unfold processPref
        rw [if_neg hc]
      have hst2 : processPref pm sha c (E1, []) p = (E1, []) := by
        unfold processPref
        rw [if_neg hc]
      rw [hst, hst2]
      exact ih E1 E0 R h1 h0

theorem prefsFold_keys_cls (pm : List (Str × List FpRow)) (sha : Str) (c : ClassEntry) :
    ∀ (prefs : List Str) (st : MatchSt), (∀ k ∈ st.1, k.1 = c.cls) →
    ∀ k ∈ (prefs.foldl (processPref pm sha c) st).1, k.1 = c.cls := by
  intro prefs
  induction prefs with
  | nil => intro st h; exact h
  | cons p tl ih =>
    intro st h
    rw [List.foldl_cons]
    refine ih _ ?_
    unfold processPref
    by_cases hc : pmContains pm p = true
    · rw [if_pos hc]
      exact entsFold_keys_cls sha c (pmLookup pm p) st h
    · rw [if_neg hc]; exact h

theorem match_fold_rows (pm : List (Str × List FpRow)) (sha : Str) :
    ∀ (cs : List ClassEntry) (E : List (Str × Str × Str × Str)) (R : List MatchRow),
    (cs.map ClassEntry.cls).Nodup →
    (∀ k ∈ E, k.1 ∉ cs.map ClassEntry.cls) →
    (cs.foldl (processClass pm sha) (E, R)).2 =
      R ++ (cs.map (fun c => classRecords pm sha c)).flatten := by
  intro cs
  induction cs with
  | nil => intro E R _ _; simp
  | cons c tl ih =>
    intro E R hnd hE
    rw [List.foldl_cons]
    have hE1 : ∀ k ∈ E, k.1 ≠ c.cls := by
      intro k hk hceq
      apply hE k hk
      simp [hceq]
    have hsplit := prefsFold_split pm sha c (all_prefixes_for_class c.cls) [] E R
      (by simp) hE1
    simp only [List.nil_append] at hsplit
    have hcls : processClass pm sha (E, R) c =
        ((processClass pm sha ([], []) c).1 ++ E,
         R ++ (processClass pm sha ([], []) c).2) := hsplit
    rw [hcls]
    simp only [List.map_cons, List.nodup_cons] at hnd
    have hkeys : ∀ k ∈ (processClass pm sha ([], []) c).1 ++ E,
        k.1 ∉ tl.map ClassEntry.cls := by
      intro k hk
      rcases List.mem_append.mp hk with hk | hk
      · have : k.1 = c.cls :=
          prefsFold_keys_cls pm sha c (all_prefixes_for_class c.cls) ([], [])
            (by simp) k hk
        rw [this]
        exact hnd.1
      · intro hmem
        exact hE k hk (List.mem_cons_of_mem _ hmem)
    rw [ih _ _ hnd.2 hkeys]
    simp [classRecords, List.append_assoc]

theorem match_app_eq_flatten (pm : List (Str × List FpRow)) (sha : Str)
    (cs : List ClassEntry) (hnd : (cs.map ClassEntry.cls).Nodup) :
    match_app pm sha cs = (cs.map (fun c => classRecords pm sha c)).flatten := by
  unfold match_app
  rw [match_fold_rows pm sha cs [] [] hnd (by simp)]
  simp

theorem flatten_map_perm {α β : Type} (f : α → List β) :
    ∀ {l1 l2 : List α}, l1.Perm l2 →
    ((l1.map f).flatten).Perm ((l2.map f).flatten) := by
  intro l1 l2 h
  induction h with
  | nil => simp
  | cons x h ih => simpa using List.Perm.append_left (f x) ih
  | swap x y l =>
    simp only [List.map_cons, List.flatten_cons]
    rw [← List.append_assoc, ← List.append_assoc]
    exact List.Perm.append_right _ List.perm_append_comm
  | trans h1 h2 ih1 ih2 => exact ih1.trans ih2

/-- Claim C9 (amended): the Matching Engine is deterministic and
order-independent on a target's class-descriptor set provided the
descriptors carry pairwise-distinct class names: for identical corpus and
class sets, enumerated in any order, the produced Match Records are the
same up to permutation, hence set-equal.  (Without the distinct-name
proviso the engine is order-dependent: the dedup key omits the file, so a
class name declared in two files keeps only the first-seen file.) -/
theorem c9_matching_deterministic (pm : List (Str × List FpRow)) (sha : Str)
    (cs1 cs2 : List ClassEntry) (hperm : cs1.Perm cs2)
    (hnd : (cs1.map ClassEntry.cls).Nodup) :
    (match_app pm sha cs1).Perm (match_app pm sha cs2) ∧
    (match_app pm sha cs1).toFinset = (match_app pm sha cs2).toFinset := by
  have hnd2 : (cs2.map ClassEntry.cls).Nodup := (hperm.map ClassEntry.cls).nodup hnd
  have hp : (match_app pm sha cs1).Perm (match_app pm sha cs2) := by
    rw [match_app_eq_flatten pm sha cs1 hnd, match_app_eq_flatten pm sha cs2 hnd2]
    exact flatten_map_perm _ hperm
  refine ⟨hp, ?_⟩
  ext x
  simp only [List.mem_toFinset]
  exact hp.mem_iff

/-- Claim C9 witness: matching the same two-class set in the two possible
orders against a one-repository corpus yields permutation-equal (and
set-equal) Match Records. -/
theorem c9_matching_deterministic_witness :
    (match_app
        (load_fingerprints
          [{ repo_host := "github".toList, repo_path := "a/repoA".toList,
             repo_url := "u1".toList, libarary_key := "a/repoA".toList,
             library_name := "repoA".toList, smali_pref := "Lcom/util/".toList,
             fingerprint_type := "java_package".toList, repo_file_path := "f1".toList }])
        "s".toList
        [⟨"Lcom/util/A;".toList, "fa".toList⟩, ⟨"Lcom/util/B;".toList, "fb".toList⟩]).Perm
      (match_app
        (load_fingerprints
          [{ repo_host := "github".toList, repo_path := "a/repoA".toList,
             repo_url := "u1".toList, libarary_key := "a/repoA".toList,
             library_name := "repoA".toList, smali_pref := "Lcom/util/".toList,
             fingerprint_type := "java_package".toList, repo_file_path := "f1".toList }])
        "s".toList
        [⟨"Lcom/util/B;".toList, "fb".toList⟩, ⟨"Lcom/util/A;".toList, "fa".toList⟩]) ∧
    (match_app
        (load_fingerprints
          [{ repo_host := "github".toList, repo_path := "a/repoA".toList,
             repo_url := "u1".toList, libarary_key := "a/repoA".toList,
             library_name := "repoA".toList, smali_pref := "Lcom/util/".toList,
             fingerprint_type := "java_package".toList, repo_file_path := "f1".toList }])
        "s".toList
        [⟨"Lcom/util/A;".toList, "fa".toList⟩,
         ⟨"Lcom/util/B;".toList, "fb".toList⟩]).toFinset =
      (match_app
        (load_fingerprints
          [{ repo_host := "github".toList, repo_path := "a/repoA".toList,
             repo_url := "u1".toList, libarary_key := "a/repoA".toList,
             library_name := "repoA".toList, smali_pref := "Lcom/util/".toList,
             fingerprint_type := "java_package".toList, repo_file_path := "f1".toList }])
        "s".toList
        [⟨"Lcom/util/B;".toList, "fb".toList⟩,
         ⟨"Lcom/util/A;".toList, "fa".toList⟩]).toFinset :=
  c9_matching_deterministic _ _ _ _
    (List.Perm.swap (⟨"Lcom/util/B;".toList, "fb".toList⟩ : ClassEntry)
      (⟨"Lcom/util/A;".toList, "fa".toList⟩ : ClassEntry) [])
    (by decide)

/-! ### Aggregation lemmas -/

theorem setAdd_nodup {α : Type} [DecidableEq α] {s : List α} (h : s.Nodup) (a : α) :
    (setAdd s a).Nodup := by
  by_cases hm : a ∈ s
  · simpa [setAdd, hm] using h
  · simp [setAdd, hm, List.nodup_append, h]

theorem setAdd_toFinset {α : Type} [DecidableEq α] (s : List α) (a : α) :
    (setAdd s a).toFinset = insert a s.toFinset := by
  by_cases hm : a ∈ s
  · simp [setAdd, hm, Finset.insert_eq_self.mpr (List.mem_toFinset.mpr hm)]
  · rw [setAdd, if_neg hm, List.toFinset_append]
    simp only [List.toFinset_cons, List.toFinset_nil, insert_emptyc_eq]
    rw [Finset.union_comm]
    exact (Finset.insert_eq a s.toFinset).symm

theorem bLookup_bucketsAdd (m : List ((Str × Str × Str × Str × Str) × Bucket))
    (r : MatchRow) (k : Str × Str × Str × Str × Str) :
    bLookup (bucketsAdd m r) k =
      if k = sumKey r then some (bucketAdd ((bLookup m k).getD emptyBucket) r)
      else bLookup m k := by
  induction m with
  | nil =>
    by_cases h : k = sumKey r
    · simp [bucketsAdd, bLookup, h]
    · simp [bucketsAdd, bLookup, h, Ne.symm h]
  | cons kv rest ih =>
    obtain ⟨k0, b0⟩ := kv
    by_cases h0 : k0 = sumKey r
    · simp only [bucketsAdd, if_pos h0]
      by_cases hk : k0 = k
      · have hks : k = sumKey r := hk ▸ h0
        simp [bLookup, hk, hks]
      · have hks : ¬k = sumKey r := fun hh => hk (by rw [h0, ← hh])
        simp [bLookup, hk, hks]
    · simp only [bucketsAdd, h0, if_false]
      by_cases hk : k0 = k
      · have hks : ¬k = sumKey r := fun hh => h0 (by rw [hk, hh])
        simp [bLookup, hk, hks]
      · have hl : bLookup ((k0, b0) :: bucketsAdd rest r) k =
            bLookup (bucketsAdd rest r) k := by
          simp [bLookup, hk]
        have hr : bLookup ((k0, b0) :: rest) k = bLookup rest k := by
          simp [bLookup, hk]
        rw [hl, ih]
        by_cases hq : k = sumKey r
        · rw [if_pos hq, if_pos hq, hr]
        · rw [if_neg hq, if_neg hq, hr]

theorem bucketsAdd_keys (m : List ((Str × Str × Str × Str × Str) × Bucket))
    (r : MatchRow) :
    (bucketsAdd m r).map Prod.fst =
      if sumKey r ∈ m.map Prod.fst then m.map Prod.fst
      else m.map Prod.fst ++ [sumKey r] := by
  induction m with
  | nil => simp [bucketsAdd]
  | cons kv rest ih =>
    obtain ⟨k0, b0⟩ := kv
    by_cases h0 : k0 = sumKey r
    · subst h0
      simp only [bucketsAdd, if_pos rfl, List.map_cons]
      rw [if_pos (List.mem_cons_self _ _)]
      simp
    · simp only [bucketsAdd, h0, if_false, List.map_cons, ih]
      by_cases hmem : sumKey r ∈ rest.map Prod.fst
      · simp [hmem, Ne.symm h0]
      · simp [hmem, Ne.symm h0]

theorem bucketsAdd_keys_nodup {m : List ((Str × Str × Str × Str × Str) × Bucket)}
    (h : (m.map Prod.fst).Nodup) (r : MatchRow) :
    ((bucketsAdd m r).map Prod.fst).Nodup := by
  rw [bucketsAdd_keys]
  by_cases hmem : sumKey r ∈ m.map Prod.fst
  · simpa [hmem] using h
  · simp [hmem, List.nodup_append, h]

theorem bLookup_of_mem : ∀ {m : List ((Str × Str × Str × Str × Str) × Bucket)},
    (m.map Prod.fst).Nodup →
    ∀ {kb}, kb ∈ m → bLookup m kb.1 = some kb.2 := by
  intro m
  induction m with
  | nil => intro _ kb h; simp at h
  | cons kv rest ih =>
    intro hnd kb hmem
    obtain ⟨k0, b0⟩ := kv
    simp only [List.map_cons, List.nodup_cons] at hnd
    rcases List.mem_cons.mp hmem with h | h
    · subst h
      simp [bLookup]
    · have hk : k0 ≠ kb.1 := by
        intro hh
        exact hnd.1 (hh ▸ List.mem_map_of_mem Prod.fst h)
      simp only [bLookup, hk, if_false]
      exact ih hnd.2 h

theorem bucketAdd_classesSet (b : Bucket) (r : MatchRow) :
    (bucketAdd b r).classesSet =
      if r.cls = [] then b.classesSet
      else setAdd b.classesSet (r.cls, r.cls_file) := by
  unfold bucketAdd
  by_cases hcr : r.cls = []
  · rw [if_pos hcr, if_pos hcr]
  · rw [if_neg hcr, if_neg hcr]

theorem bucketsAdd_inv_step (h : List MatchRow)
    (m : List ((Str × Str × Str × Str × Str) × Bucket)) (r : MatchRow)
    (hnd : (m.map Prod.fst).Nodup)
    (hbk : ∀ k b, bLookup m k = some b → b.classesSet.Nodup ∧
      b.classesSet.toFinset =
        ((h.filter (fun x => decide (sumKey x = k) && decide (¬x.cls = []))).map
          (fun x => (x.cls, x.cls_file))).toFinset)
    (hcov : ∀ x ∈ h, ∃ b, bLookup m (sumKey x) = some b) :
    ((bucketsAdd m r).map Prod.fst).Nodup ∧
    (∀ k b, bLookup (bucketsAdd m r) k = some b → b.classesSet.Nodup ∧
      b.classesSet.toFinset =
        (((h ++ [r]).filter
            (fun x => decide (sumKey x = k) && decide (¬x.cls = []))).map
          (fun x => (x.cls, x.cls_file))).toFinset) ∧
    (∀ x ∈ h ++ [r], ∃ b, bLookup (bucketsAdd m r) (sumKey x) = some b) := by
  refine ⟨bucketsAdd_keys_nodup hnd r, ?_, ?_⟩
  · intro k b hb
    rw [bLookup_bucketsAdd] at hb
    rw [List.filter_append, List.map_append, List.toFinset_append]
    by_cases hks : k = sumKey r
    · rw [if_pos hks, Option.some_inj] at hb
      have hbase : ((bLookup m k).getD emptyBucket).classesSet.Nodup ∧
          ((bLookup m k).getD emptyBucket).classesSet.toFinset =
            ((h.filter (fun x => decide (sumKey x = k) &&
                decide (¬x.cls = []))).map
              (fun x => (x.cls, x.cls_file))).toFinset := by
        cases hlk : bLookup m k with
        | some b0 => simpa [hlk] using hbk k b0 hlk
        | none =>
          have hfil : h.filter
              (fun x => decide (sumKey x = k) && decide (¬x.cls = [])) = [] := by
            rw [List.filter_eq_nil_iff]
            intro x hx hpx
            simp only [Bool.and_eq_true, decide_eq_true_eq] at hpx
            obtain ⟨bx, hbx⟩ := hcov x hx
            rw [hpx.1, hlk] at hbx
            exact Option.noConfusion hbx
          rw [hfil]
          simp [emptyBucket]
      subst hb
      by_cases hcr : r.cls = []
      · have hfr : [r].filter
            (fun x => decide (sumKey x = k) && decide (¬x.cls = [])) = [] := by
          simp [List.filter, hcr]
        rw [hfr]
        simp only [List.map_nil, List.toFinset_nil, Finset.union_empty]
        rw [bucketAdd_classesSet, if_pos hcr]
        exact hbase
      · have hfr : [r].filter
            (fun x => decide (sumKey x = k) && decide (¬x.cls = [])) = [r] := by
          simp [List.filter, hks, hcr]
        rw [hfr]
        rw [bucketAdd_classesSet, if_neg hcr]
        refine ⟨setAdd_nodup hbase.1 _, ?_⟩
        rw [setAdd_toFinset, hbase.2]
        simp [Finset.insert_eq, Finset.union_comm]
    · rw [if_neg hks] at hb
      have hkb := hbk k b hb
      refine ⟨hkb.1, ?_⟩
      have hfr : [r].filter
          (fun x => decide (sumKey x = k) && decide (¬x.cls = [])) = [] := by
        have hd : decide (sumKey r = k) = false := by
          simp only [decide_eq_false_iff_not]
          exact fun hh => hks hh.symm
        simp [List.filter, hd]
      rw [hfr]
      simp only [List.map_nil, List.toFinset_nil, Finset.union_empty]
      exact hkb.2
  · intro x hx
    rcases List.mem_append.mp hx with hx | hx
    · obtain ⟨bx, hbx⟩ := hcov x hx
      rw [bLookup_bucketsAdd]
      by_cases hxr : sumKey x = sumKey r
      · rw [if_pos hxr]; exact ⟨_, rfl⟩
      · rw [if_neg hxr]; exact ⟨bx, hbx⟩
    · have hxr : x = r := by simpa using hx
      subst hxr
      rw [bLookup_bucketsAdd, if_pos rfl]
      exact ⟨_, rfl⟩

theorem buckets_fold_inv : ∀ (rows h : List MatchRow)
    (m : List ((Str × Str × Str × Str × Str) × Bucket)),
    (m.map Prod.fst).Nodup →
    (∀ k b, bLookup m k = some b → b.classesSet.Nodup ∧
      b.classesSet.toFinset =
        ((h.filter (fun x => decide (sumKey x = k) && decide (¬x.cls = []))).map
          (fun x => (x.cls, x.cls_file))).toFinset) →
    (∀ x ∈ h, ∃ b, bLookup m (sumKey x) = some b) →
    ((rows.foldl bucketsAdd m).map Prod.fst).Nodup ∧
    (∀ k b, bLookup (rows.foldl bucketsAdd m) k = some b → b.classesSet.Nodup ∧
      b.classesSet.toFinset =
        (((h ++ rows).filter
            (fun x => decide (sumKey x = k) && decide (¬x.cls = []))).map
          (fun x => (x.cls, x.cls_file))).toFinset) := by
  intro rows
  induction rows with
  | nil =>
    intro h m h1 h2 _
    simp only [List.foldl_nil, List.append_nil]
    exact ⟨h1, h2⟩
  | cons r tl ih =>
    intro h m h1 h2 h3
    rw [List.foldl_cons]
    obtain ⟨s1, s2, s3⟩ := bucketsAdd_inv_step h m r h1 h2 h3
    have hres := ih (h ++ [r]) (bucketsAdd m r) s1 s2 s3
    simp only [List.append_assoc, List.singleton_append] at hres
    exact hres

/-- Claim C8: for every summary group produced by the Aggregator, the
`classes_matched` value equals the number of distinct `(class, file)` pairs
among the Match Records folded into that group (records with the group's
`(repo_host, repo_path, library_key, library_name, smali_prefix)` key); a
class matched through several records of the same group is counted once. -/
theorem c8_classes_matched_distinct (sha : Str) (rows : List MatchRow)
    (hcls : ∀ r ∈ rows, r.cls ≠ []) :
    ∀ s ∈ summarize_one_rows sha rows,
      s.classes_matched =
        ((rows.filter (fun r => decide (sumKey r =
            (s.repo_host, s.repo_path, s.libarary_key, s.library_name,
             s.smali_pref)))).map (fun r => (r.cls, r.cls_file))).toFinset.card := by
  intro s hs
  unfold summarize_one_rows at hs
  obtain ⟨kb, hkb, hseq⟩ := List.mem_map.mp hs
  obtain ⟨⟨a1, a2, a3, a4, a5⟩, b⟩ := kb
  unfold buildBuckets at hkb
  obtain ⟨h1, h2⟩ := buckets_fold_inv rows [] []
    (by simp)
    (by intro k bb hb; simp [bLookup] at hb)
    (by simp)
  have hlk : bLookup (rows.foldl bucketsAdd []) (a1, a2, a3, a4, a5) = some b :=
    bLookup_of_mem h1 hkb
  obtain ⟨hnodup, hset⟩ := h2 _ _ hlk
  subst hseq
  show b.classesSet.length =
    ((rows.filter (fun r => decide (sumKey r = (a1, a2, a3, a4, a5)))).map
      (fun r => (r.cls, r.cls_file))).toFinset.card
  have hfe : ([] ++ rows).filter
      (fun x => decide (sumKey x = (a1, a2, a3, a4, a5)) && decide (¬x.cls = [])) =
      rows.filter (fun r => decide (sumKey r = (a1, a2, a3, a4, a5))) := by
    simp only [List.nil_append]
    refine List.filter_congr ?_
    intro x hx
    simp [hcls x hx]
  rw [show b.classesSet.length = b.classesSet.toFinset.card by
    rw [List.card_toFinset, List.dedup_eq_self.mpr hnodup]]
  rw [hset, hfe]

/-- Claim C8 witness: a report with three rows in one group (a duplicated
record and two distinct classes) summarizes to `classes_matched = 2`, the
number of distinct `(class, file)` pairs in the group. -/
theorem c8_classes_matched_distinct_witness :
    ({ app_sha256 := "s".toList, repo_host := "github".toList,
       repo_path := "a/repoA".toList, repo_url := "u".toList,
       libarary_key := "a/repoA".toList, library_name := "repoA".toList,
       smali_pref := "Lcom/foo/".toList,
       fingerprint_types := "java_package|manifest_package".toList,
       classes_matched := 2, sample_cls := "Lcom/foo/X;".toList,
       sample_cls_file := "fx".toList : SummaryRow }).classes_matched =
      (([{ app_sha256 := "s".toList, repo_host := "github".toList,
           repo_path := "a/repoA".toList, repo_url := "u".toList,
           libarary_key := "a/repoA".toList, library_name := "repoA".toList,
           smali_pref := "Lcom/foo/".toList,
           fingerprint_type := "java_package".toList,
           cls := "Lcom/foo/X;".toList, cls_file := "fx".toList : MatchRow },
         { app_sha256 := "s".toList, repo_host := "github".toList,
           repo_path := "a/repoA".toList, repo_url := "u".toList,
           libarary_key := "a/repoA".toList, library_name := "repoA".toList,
           smali_pref := "Lcom/foo/".toList,
           fingerprint_type := "manifest_package".toList,
           cls := "Lcom/foo/Y;".toList, cls_file := "fy".toList : MatchRow },
         { app_sha256 := "s".toList, repo_host := "github".toList,
           repo_path := "a/repoA".toList, repo_url := "u".toList,
           libarary_key := "a/repoA".toList, library_name := "repoA".toList,
           smali_pref := "Lcom/foo/".toList,
           fingerprint_type := "java_package".toList,
           cls := "Lcom/foo/X;".toList, cls_file := "fx".toList : MatchRow }].filter
          (fun r => decide (sumKey r =
            ("github".toList, "a/repoA".toList, "a/repoA".toList,
             "repoA".toList, "Lcom/foo/".toList)))).map
        (fun r => (r.cls, r.cls_file))).toFinset.card :=
  c8_classes_matched_distinct "s".toList
    [{ app_sha256 := "s".toList, repo_host := "github".toList,
       repo_path := "a/repoA".toList, repo_url := "u".toList,
       libarary_key := "a/repoA".toList, library_name := "repoA".toList,
       smali_pref := "Lcom/foo/".toList,
       fingerprint_type := "java_package".toList,
       cls := "Lcom/foo/X;".toList, cls_file := "fx".toList },
     { app_sha256 := "s".toList, repo_host := "github".toList,
       repo_path := "a/repoA".toList, repo_url := "u".toList,
       libarary_key := "a/repoA".toList, library_name := "repoA".toList,
       smali_pref := "Lcom/foo/".toList,
       fingerprint_type := "manifest_package".toList,
       cls := "Lcom/foo/Y;".toList, cls_file := "fy".toList },
     { app_sha256 := "s".toList, repo_host := "github".toList,
       repo_path := "a/repoA".toList, repo_url := "u".toList,
       libarary_key := "a/repoA".toList, library_name := "repoA".toList,
       smali_pref := "Lcom/foo/".toList,
       fingerprint_type := "java_package".toList,
       cls := "Lcom/foo/X;".toList, cls_file := "fx".toList }]
    (by decide)
    { app_sha256 := "s".toList, repo_host := "github".toList,
      repo_path := "a/repoA".toList, repo_url := "u".toList,
      libarary_key := "a/repoA".toList, library_name := "repoA".toList,
      smali_pref := "Lcom/foo/".toList,
      fingerprint_types := "java_package|manifest_package".toList,
      classes_matched := 2, sample_cls := "Lcom/foo/X;".toList,
      sample_cls_file := "fx".toList }
    (by decide)

/-- Claim C9 counterexample: the Matching Engine is not order-independent on
class-descriptor sets in which one class name is declared in two different
files.  The dedup key `(clazz, smali_prefix, repo_host, repo_path)` omits
the file, so for the identical descriptor set containing `La/B;` in `f1`
and in `f2` (a permutation of the same two descriptors), the enumeration
order decides which `class_file` is emitted: the record crediting `f1` is
produced by one order and absent from the other, so the two runs' Match
Record sets are not set-equal. -/
theorem c9_matching_deterministic_cex :
    ([⟨"La/B;".toList, "f1".toList⟩, ⟨"La/B;".toList, "f2".toList⟩] :
        List ClassEntry).Perm
      [⟨"La/B;".toList, "f2".toList⟩, ⟨"La/B;".toList, "f1".toList⟩] ∧
    ({ app_sha256 := "s".toList, repo_host := "github".toList,
       repo_path := "a/repoA".toList, repo_url := "u1".toList,
       libarary_key := "a/repoA".toList, library_name := "repoA".toList,
       smali_pref := "La/".toList, fingerprint_type := "java_package".toList,
       cls := "La/B;".toList, cls_file := "f1".toList : MatchRow } ∈
      match_app
        (load_fingerprints
          [{ repo_host := "github".toList, repo_path := "a/repoA".toList,
             repo_url := "u1".toList, libarary_key := "a/repoA".toList,
             library_name := "repoA".toList, smali_pref := "La/".toList,
             fingerprint_type := "java_package".toList,
             repo_file_path := "f".toList }])
        "s".toList
        [⟨"La/B;".toList, "f1".toList⟩, ⟨"La/B;".toList, "f2".toList⟩]) ∧
    ({ app_sha256 := "s".toList, repo_host := "github".toList,
       repo_path := "a/repoA".toList, repo_url := "u1".toList,
       libarary_key := "a/repoA".toList, library_name := "repoA".toList,
       smali_pref := "La/".toList, fingerprint_type := "java_package".toList,
       cls := "La/B;".toList, cls_file := "f1".toList : MatchRow } ∉
      match_app
        (load_fingerprints
          [{ repo_host := "github".toList, repo_path := "a/repoA".toList,
             repo_url := "u1".toList, libarary_key := "a/repoA".toList,
             library_name := "repoA".toList, smali_pref := "La/".toList,
             fingerprint_type := "java_package".toList,
             repo_file_path := "f".toList }])
        "s".toList
        [⟨"La/B;".toList, "f2".toList⟩, ⟨"La/B;".toList, "f1".toList⟩]) := by
  refine ⟨List.Perm.swap _ _ [], by decide, by decide⟩
